import Mathlib

/-!
# Verification of the cosmos-sdk upgrade-plan artifact verifier (`x/upgrade/types/planinfo`)

This file gives a shallow embedding of the `planinfo` package: the plan-info
parser (`ParsePlanInfo`), the basic validator (`BinaryDownloadURLMap.ValidateBasic`),
the artifact checker (`BinaryDownloadURLMap.CheckURLs`) and the orchestrator
(`PlanInfo.ValidateFull`), together with theorems about them.

Modelling conventions:
* Go strings are modelled as Lean `String` (sequences of unicode scalar values).
* A Go `map[string]string` is modelled as an association list
  `List (String × String)`.  Go map iteration order is unspecified, so theorems
  about iteration quantify over the list order; a list with pairwise-distinct
  keys represents a map, and map equality is key-value-set equality.
* Errors are modelled as `Except String`, the `String` being the error message
  produced by the corresponding `errors.New` / `fmt.Errorf` call.
* Network and filesystem effects are modelled by explicit state passing: the
  filesystem is a list of existing paths, and the two external collaborators
  (`DownloadPlanInfoFromURL` and `DownloadUpgrade`, whose sources are not part
  of the examined material) are oracle parameters.
-/

/-! ## Character classes and platform-key patterns -/

/-- `[a-zA-Z0-9]` — the character class of the `osArchRx` regular expression. -/
def isAlnumChar (c : Char) : Bool :=
  ('a' ≤ c && c ≤ 'z') || ('A' ≤ c && c ≤ 'Z') || ('0' ≤ c && c ≤ '9')

/-- Is there a window of three consecutive characters `alnum, '/', alnum`?
The unanchored regular expression `[a-zA-Z0-9]+/[a-zA-Z0-9]+` matches somewhere
inside a string exactly when such a window exists (a match needs at least one
alphanumeric on each side of a `/`, and any longer match contains such a
window). -/
def hasOsArchWindow : List Char → Bool
  | a :: s :: b :: t =>
    (isAlnumChar a && s == '/' && isAlnumChar b) || hasOsArchWindow (s :: b :: t)
  | _ => false

/-- Models `osArchRx.MatchString key` from the source, where
`osArchRx = regexp.MustCompile([a-zA-Z0-9]+/[a-zA-Z0-9]+)`: an *unanchored*
substring match of the os/arch pattern. -/
def containsOsArch (s : String) : Bool := hasOsArchWindow s.data

/-- Split a character list at its first `'/'`; `none` when there is no `'/'`. -/
def splitFirstSlash : List Char → Option (List Char × List Char)
  | [] => none
  | c :: t =>
    if c = '/' then some ([], t)
    else (splitFirstSlash t).map fun p => (c :: p.1, p.2)

/-- Written from the spec's words, for comparison with `containsOsArch`: the
*anchored* pattern `^[a-zA-Z0-9]+/[a-zA-Z0-9]+$` — the whole key is a nonempty
alphanumeric run, one slash, and a nonempty alphanumeric run.  (Alphanumeric
characters are never `'/'`, so the second run being all-alphanumeric already
forces exactly one slash in the key.) -/
def specOsArchAnchored (s : String) : Bool :=
  match splitFirstSlash s.data with
  | none => false
  | some (a, b) => !a.isEmpty && !b.isEmpty && a.all isAlnumChar && b.all isAlnumChar

/-- Models `strings.ReplaceAll(osArch, "/", "-")`: with a single-character
pattern and replacement, `ReplaceAll` replaces each occurrence of the character,
i.e. maps `'/'` to `'-'` characterwise. -/
def replSlashDash (s : String) : String :=
  String.mk (s.data.map fun c => if c = '/' then '-' else c)

/-! ## A model of Go's `net/url.Parse`

`ParsePlanInfo` and `ValidateBasic` call `neturl.Parse` (standard library).  The
model below follows `net/url`'s `Parse`/`parse` (with `viaRequest = false`):
control-byte rejection, the `"*"` special case, scheme splitting (`getScheme`),
the fragment and query splits, the early-return shortcut for rootless URLs
with a scheme (stored unvalidated), the "first path segment in URL cannot
contain colon" rule for rootless schemeless URLs, the authority split with
`parseAuthority`/`parseHost` (userinfo validation, host character validation,
optional-port syntax, IPv6 brackets with the `%25` zone split, and the
host-mode percent-escape restriction), and percent-escape validation of the
userinfo, path and fragment.  Error messages follow Go's, with offending
fragments rendered through a model of `strconv.Quote` (exact on ASCII;
non-ASCII characters are rendered as themselves, i.e. treated as printable). -/

/-- Models Go's `stringContainsCTLByte`: a byte below `0x20` or equal to `0x7f`.
(Bytes of multi-byte UTF-8 runes are all at least `0x80`, so checking scalar
values is equivalent to checking bytes.) -/
def isCTLByte (c : Char) : Bool := c.toNat < 0x20 || c.toNat == 0x7f

/-- ASCII letter, as in `getScheme`'s first case. -/
def isSchemeLetter (c : Char) : Bool := ('a' ≤ c && c ≤ 'z') || ('A' ≤ c && c ≤ 'Z')

/-- Digit or `+ - .`, allowed in a scheme after the first character. -/
def isSchemeOther (c : Char) : Bool :=
  ('0' ≤ c && c ≤ '9') || c == '+' || c == '-' || c == '.'

/-- Models `net/url`'s `getScheme`.  `orig` is the whole input (returned as the
remainder when there is no scheme), `acc` the scheme characters read so far in
reverse, and the third argument the characters still to scan.  Returns the
scheme (empty when absent) and the remainder, or the "missing protocol scheme"
error for a leading `':'`. -/
def getSchemeGo (orig : List Char) : List Char → List Char →
    Except String (List Char × List Char)
  | _, [] => .ok ([], orig)
  | acc, c :: t =>
    if isSchemeLetter c then getSchemeGo orig (c :: acc) t
    else if isSchemeOther c then
      if acc.isEmpty then .ok ([], orig) else getSchemeGo orig (c :: acc) t
    else if c = ':' then
      if acc.isEmpty then .error "missing protocol scheme"
      else .ok (acc.reverse, t)
    else .ok ([], orig)

/-- The part of a character list before the first occurrence of `sep`
(the whole list when `sep` does not occur) — Go's `split(s, sep, true)` first
component. -/
def cutBefore (sep : Char) : List Char → List Char
  | [] => []
  | c :: t => if c = sep then [] else c :: cutBefore sep t

/-- The part after the first occurrence of `sep` (empty when `sep` does not
occur) — Go's `split(s, sep, true)` second component. -/
def cutAfter (sep : Char) : List Char → List Char
  | [] => []
  | c :: t => if c = sep then t else cutAfter sep t

/-- Does `sep` occur in the list? -/
def listContains (sep : Char) : List Char → Bool
  | [] => false
  | c :: t => c = sep || listContains sep t

/-- Hexadecimal digit, as in `net/url`'s `ishex`. -/
def isHexChar (c : Char) : Bool :=
  ('0' ≤ c && c ≤ '9') || ('a' ≤ c && c ≤ 'f') || ('A' ≤ c && c ≤ 'F')

/-- The hexadecimal digit characters `0-9a-f` used by the escaper. -/
def hexDigitChar (n : Nat) : Char :=
  if n < 10 then Char.ofNat ('0'.toNat + n) else Char.ofNat ('a'.toNat + (n - 10))

/-- The value of one hexadecimal digit. -/
def fromHexChar (c : Char) : Option Nat :=
  if '0' ≤ c ∧ c ≤ '9' then some (c.toNat - '0'.toNat)
  else if 'a' ≤ c ∧ c ≤ 'f' then some (c.toNat - 'a'.toNat + 10)
  else if 'A' ≤ c ∧ c ≤ 'F' then some (c.toNat - 'A'.toNat + 10)
  else none

/-- One character of `strconv.Quote`'s rendering: `"` and the backslash get a
backslash, printable ASCII is kept, the named control characters use their
escapes, other ASCII uses `\xhh`; non-ASCII characters are kept as themselves
(Go keeps exactly the printable ones and `\u`-escapes the rest; the theorems
below only evaluate this on ASCII). -/
def goQuoteChar (c : Char) : List Char :=
  if c = '"' then ['\\', '"']
  else if c = '\\' then ['\\', '\\']
  else if c.toNat < 0x80 then
    if 0x20 ≤ c.toNat ∧ c.toNat ≠ 0x7f then [c]
    else if c.toNat = 7 then ['\\', 'a']
    else if c.toNat = 8 then ['\\', 'b']
    else if c.toNat = 12 then ['\\', 'f']
    else if c.toNat = 10 then ['\\', 'n']
    else if c.toNat = 13 then ['\\', 'r']
    else if c.toNat = 9 then ['\\', 't']
    else if c.toNat = 11 then ['\\', 'v']
    else ['\\', 'x', hexDigitChar (c.toNat / 16), hexDigitChar (c.toNat % 16)]
  else [c]

/-- Models `strconv.Quote` on a character list (see `goQuoteChar`). -/
def goQuoteList (l : List Char) : String :=
  String.mk ('"' :: ((l.map goQuoteChar).flatten ++ ['"']))

/-- Models `strconv.Quote`, as used by `%q` and by `url.Error`'s rendering. -/
def goQuote (s : String) : String := goQuoteList s.data

/-- Models the percent-escape validation of `net/url`'s `unescape` in the
path, fragment and userinfo modes: every `'%'` must be followed by two
hexadecimal digits, else `invalid URL escape` naming the (up to three
character) offending chunk. -/
def escapeCheck : List Char → Except String Unit
  | [] => .ok ()
  | '%' :: a :: b :: t =>
    if isHexChar a && isHexChar b then escapeCheck t
    else .error ("invalid URL escape " ++ goQuoteList ['%', a, b])
  | '%' :: t => .error ("invalid URL escape " ++ goQuoteList ('%' :: t))
  | _ :: t => escapeCheck t

/-- The ASCII characters `net/url`'s `shouldEscape` leaves unescaped in host
mode: alphanumerics, `-_.~` and the host sub-delimiters. -/
def isValidHostChar (c : Char) : Bool :=
  isAlnumChar c || c = '-' || c = '_' || c = '.' || c = '~' ||
    c = '!' || c = '$' || c = '&' || c = '\'' || c = '(' || c = ')' ||
    c = '*' || c = '+' || c = ',' || c = ';' || c = '=' || c = ':' ||
    c = '[' || c = ']' || c = '<' || c = '>' || c = '"'

/-- Models `net/url`'s `unescape` in host mode (and, with `strictPct = false`,
zone mode): percent escapes need two hexadecimal digits; in host mode an
escape whose first digit is below 8 (an ASCII byte) is rejected unless it is
exactly `%25`; a raw ASCII character outside the host set is an
invalid-character-in-host error.  Non-ASCII characters are not checked, as in
Go. -/
def hostEscapeCheck (strictPct : Bool) : List Char → Except String Unit
  | [] => .ok ()
  | '%' :: a :: b :: t =>
    if !(isHexChar a && isHexChar b) then
      .error ("invalid URL escape " ++ goQuoteList ['%', a, b])
    else if strictPct && decide ((fromHexChar a).getD 16 < 8) && !(a = '2' && b = '5') then
      .error ("invalid URL escape " ++ goQuoteList ['%', a, b])
    else hostEscapeCheck strictPct t
  | '%' :: t => .error ("invalid URL escape " ++ goQuoteList ('%' :: t))
  | c :: t =>
    if c.toNat < 0x80 && !isValidHostChar c then
      .error ("invalid character " ++ goQuoteList [c] ++ " in host name")
    else hostEscapeCheck strictPct t

/-- Models `net/url`'s `validOptionalPort`: empty, or `':'` followed by
decimal digits only. -/
def validOptionalPort : List Char → Bool
  | [] => true
  | ':' :: rest => rest.all fun c => '0' ≤ c && c ≤ '9'
  | _ => false

/-- Split at the last occurrence of `sep` (Go's `strings.LastIndex`):
the parts strictly before and strictly after it, `none` when absent. -/
def splitAtLast (sep : Char) (l : List Char) : Option (List Char × List Char) :=
  if listContains sep l then
    some ((cutAfter sep l.reverse).reverse, (cutBefore sep l.reverse).reverse)
  else none

/-- Split a bracketed host at its first `"%25"` (the IPv6 zone marker, Go's
`strings.Index(host, "%25")`): the part before, and the rest starting at the
marker. -/
def zoneSplit : List Char → Option (List Char × List Char)
  | [] => none
  | '%' :: '2' :: '5' :: t => some ([], '%' :: '2' :: '5' :: t)
  | c :: t => (zoneSplit t).map fun p => (c :: p.1, p.2)

/-- Models `net/url`'s `parseHost`: a bracketed (IPv6) host needs a closing
`']'`, a valid optional port after it, and host-mode escape checks split at a
`%25` zone marker (the zone itself checked in zone mode); an unbracketed host
checks the optional port after its last `':'` and then the whole host in host
mode. -/
def parseHostGo (host : List Char) : Except String Unit :=
  if host.head? = some '[' then
    match splitAtLast ']' host with
    | none => .error "missing ']' in host"
    | some (pre, colonPort) =>
      if !validOptionalPort colonPort then
        .error ("invalid port " ++ goQuoteList colonPort ++ " after host")
      else
        match zoneSplit pre with
        | none => hostEscapeCheck true host
        | some (h1, zrest) =>
          match hostEscapeCheck true h1 with
          | .error e => .error e
          | .ok () =>
            match hostEscapeCheck false zrest with
            | .error e => .error e
            | .ok () => hostEscapeCheck true (']' :: colonPort)
  else
    match splitAtLast ':' host with
    | none => hostEscapeCheck true host
    | some (_, port) =>
      if !validOptionalPort (':' :: port) then
        .error ("invalid port " ++ goQuoteList (':' :: port) ++ " after host")
      else hostEscapeCheck true host

/-- The characters `net/url`'s `validUserinfo` accepts (non-ASCII rejected,
as in Go). -/
def isUserinfoChar (c : Char) : Bool :=
  isAlnumChar c || c = '-' || c = '.' || c = '_' || c = ':' || c = '~' ||
    c = '!' || c = '$' || c = '&' || c = '\'' || c = '(' || c = ')' ||
    c = '*' || c = '+' || c = ',' || c = ';' || c = '=' || c = '%' || c = '@'

/-- Models `net/url`'s `parseAuthority`: split at the last `'@'`, parse the
host first, then validate the userinfo's character set (`validUserinfo`) and
its percent escapes (userinfo mode rejects only malformed escapes). -/
def parseAuthorityGo (authority : List Char) : Except String Unit :=
  match splitAtLast '@' authority with
  | none => parseHostGo authority
  | some (userinfo, hostPart) =>
    match parseHostGo hostPart with
    | .error e => .error e
    | .ok () =>
      if !userinfo.all isUserinfoChar then .error "net/url: invalid userinfo"
      else escapeCheck userinfo

/-- Go's condition `colon >= 0 && (slash < 0 || colon < slash)` on a string:
scanning left to right, a `':'` occurs strictly before any `'/'`. -/
def colonBeforeSlash : List Char → Bool
  | [] => false
  | c :: t => if c = '/' then false else if c = ':' then true else colonBeforeSlash t

/-- The suffix of the list starting at its first `'/'` (empty when none):
the path part remaining after Go's `split(rest[2:], '/', false)`. -/
def restFromSlash : List Char → List Char
  | [] => []
  | c :: t => if c = '/' then c :: t else restFromSlash t

/-- Models `net/url`'s internal `parse(rawURL, false)` (fragment already
removed), returning `()` on success or the parse error message. -/
def parseInnerURL (raw : List Char) : Except String Unit :=
  if raw.any isCTLByte then .error "net/url: invalid control character in URL"
  else if raw = ['*'] then .ok ()
  else
    match getSchemeGo raw [] raw with
    | .error e => .error e
    | .ok (scheme, afterScheme) =>
      let rest :=
        if afterScheme.getLast? = some '?' && !listContains '?' afterScheme.dropLast
        then afterScheme.dropLast
        else cutBefore '?' afterScheme
      if rest.head? ≠ some '/' ∧ scheme ≠ [] then .ok ()
      else if rest.head? ≠ some '/' ∧ colonBeforeSlash rest then
        .error "first path segment in URL cannot contain colon"
      else
        let hasAuth := decide (rest.take 2 = ['/', '/']) &&
          (!scheme.isEmpty || !(decide (rest.take 3 = ['/', '/', '/'])))
        let path := if hasAuth then restFromSlash (rest.drop 2) else rest
        match (if hasAuth then parseAuthorityGo (cutBefore '/' (rest.drop 2))
            else .ok ()) with
        | .error e => .error e
        | .ok () => escapeCheck path

/-- Models Go's `neturl.Parse`: split off the fragment at the first `'#'`,
parse the rest, then validate the fragment's percent escapes (Go skips
`setFragment` when the fragment is empty). -/
def parseGoURL (s : String) : Except String Unit :=
  let raw := s.data
  let u := cutBefore '#' raw
  let frag := cutAfter '#' raw
  match parseInnerURL u with
  | .error e => .error e
  | .ok () => if frag = [] then .ok () else escapeCheck frag

/-- `parseGoURL` returns no error. -/
def goURLParseOk (s : String) : Bool :=
  match parseGoURL s with
  | .ok () => true
  | .error _ => false

/-! ## The data model and the basic validator -/

/-- `BinaryDownloadURLMap` is a map of os/architecture strings to a URL where
the binary can be downloaded, modelled as an association list (see the header
on map modelling). -/
abbrev BinaryDownloadURLMap := List (String × String)

/-- `PlanInfo` is the special structure that the `Plan.Info` string can be
(as json). -/
structure PlanInfo where
  Binaries : BinaryDownloadURLMap
  deriving Repr, DecidableEq

/-- The entry loop of `ValidateBasic`: for each `(key, val)` in order, reject a
key that is neither `"any"` nor matched (unanchored) by `osArchRx`, then reject
a value that `neturl.Parse` rejects; the first violation's error is returned. -/
def validateEntries : BinaryDownloadURLMap → Except String Unit
  | [] => .ok ()
  | (key, val) :: rest =>
    if key ≠ "any" ∧ containsOsArch key = false then
      .error ("invalid os/arch format in key \"" ++ key ++ "\"")
    else
      match parseGoURL val with
      | .error e =>
        .error ("invalid url \"" ++ val ++ "\" in binaries[" ++ key ++ "]: parse " ++
          goQuote val ++ ": " ++ e)
      | .ok () => validateEntries rest

/-- `ValidateBasic` does stateless validation of this `BinaryDownloadURLMap`:
at least one entry; all keys are `"any"` or match `osArchRx`; all values parse
as URLs.  Translated from the source (`len(m) == 0` guard, then the range
loop). -/
def BinaryDownloadURLMap.ValidateBasic (m : BinaryDownloadURLMap) : Except String Unit :=
  if m.length = 0 then .error "no \"binaries\" entries found"
  else validateEntries m

instance : DecidableEq (Except String Unit) := fun a b => by
  rcases a with e | u <;> rcases b with f | v
  · exact if h : e = f then .isTrue (by rw [h]) else .isFalse (by simpa using h)
  · exact .isFalse (by simp)
  · exact .isFalse (by simp)
  · cases u; cases v; exact .isTrue rfl

/-! ## The filesystem model and the artifact checker -/

/-- The filesystem, modelled as the list of currently existing paths. -/
abbrev FileSys := List String

/-- Characterwise "is a leading part of". -/
def isPre : List Char → List Char → Bool
  | [], _ => true
  | _, [] => false
  | a :: as, b :: bs => a = b && isPre as bs

/-- Is path `p` the directory `dir` itself, or a path inside it? -/
def underDir (dir p : String) : Bool := p = dir || isPre (dir ++ "/").data p.data

/-- Models `os.RemoveAll(dir)`: removes `dir` and everything below it from the
filesystem; any other path is untouched. -/
def removeAll (dir : String) (fs : FileSys) : FileSys :=
  fs.filter fun p => !underDir dir p

/-- One call of the fetch-and-verify collaborator, as recorded by the
instrumented artifact checker. -/
structure Invocation where
  osArch : String
  dstRoot : String
  url : String
  result : Except String Unit
  deriving DecidableEq

/-- Modelled from the spec: `DownloadUpgrade(dstRoot, url, daemonName)` — the
fetch-and-verify operation (spec §6), whose source is not part of the examined
material.  It downloads the artifact at `url`, stages it under `dstRoot` and
fails unless an executable named `daemonName` results.  Modelled as an oracle:
from the destination, url, daemon name and current filesystem it returns its
result and the filesystem extended with whatever it created. -/
abbrev Downloader := String → String → String → FileSys → Except String Unit × FileSys

/-- Modelled from the spec: `os.MkdirTemp("", "os-arch-downloads")` (standard
library) — creates a fresh, uniquely named scratch directory, or fails.
Modelled as an oracle from the current filesystem to an error or the new
directory's name. -/
abbrev TempDirOracle := FileSys → Except String String

/-- The `for osArch, url := range m` loop of `CheckURLs`: derive the
destination `filepath.Join(tempDir, strings.ReplaceAll(osArch, "/", "-"))`
(modelled as `tempDir ++ "/" ++ _`, the join of two cleaned nonempty
components), invoke `DownloadUpgrade`, and stop at the first failure, wrapping
its error with the platform key.  The third component records the invocations
made, in order, for the frame theorems. -/
def checkLoop (dl : Downloader) (daemonName tempDir : String) :
    BinaryDownloadURLMap → FileSys → Except String Unit × FileSys × List Invocation
  | [], fs => (.ok (), fs, [])
  | (osArch, url) :: rest, fs =>
    let dstRoot := tempDir ++ "/" ++ replSlashDash osArch
    match dl dstRoot url daemonName fs with
    | (.error e, fs') =>
      (.error ("error downloading binary for os/arch " ++ osArch ++ ": " ++ e), fs',
        [⟨osArch, dstRoot, url, .error e⟩])
    | (.ok (), fs') =>
      let r := checkLoop dl daemonName tempDir rest fs'
      (r.1, r.2.1, ⟨osArch, dstRoot, url, .ok ()⟩ :: r.2.2)

/-- `CheckURLs` checks that all entries have valid URLs that return expected
data: create the scratch directory (returning the wrapped error if that
fails), run the per-platform loop, and — translating the
`defer os.RemoveAll(tempDir)` — remove the scratch directory and all its
contents on every exit path before returning. -/
def BinaryDownloadURLMap.CheckURLs (mkTemp : TempDirOracle) (dl : Downloader)
    (m : BinaryDownloadURLMap) (daemonName : String) (fs : FileSys) :
    Except String Unit × FileSys × List Invocation :=
  match mkTemp fs with
  | .error e => (.error ("could not create temp directory: " ++ e), fs, [])
  | .ok tempDir =>
    let r := checkLoop dl daemonName tempDir m (tempDir :: fs)
    (r.1, removeAll tempDir r.2.1, r.2.2)

/-- `ValidateFull` does all possible validation of this `PlanInfo`: it runs
`Binaries.ValidateBasic` and returns its error if any, else runs
`Binaries.CheckURLs` and returns its result. -/
def PlanInfo.ValidateFull (mkTemp : TempDirOracle) (dl : Downloader) (m : PlanInfo)
    (daemonName : String) (fs : FileSys) :
    Except String Unit × FileSys × List Invocation :=
  match m.Binaries.ValidateBasic with
  | .error e => (.error e, fs, [])
  | .ok () => BinaryDownloadURLMap.CheckURLs mkTemp dl m.Binaries daemonName fs

/-! ## A model of the JSON layer

`ParsePlanInfo` serialization/deserialization goes through `encoding/json`
(standard library).  The serializer below models `json.Marshal` on a `PlanInfo`
value: the struct emits its single tagged field `binaries`; a map emits its
entries with keys in ascending order (UTF-8 byte order, which agrees with
scalar-value order); strings are quoted with the default HTML-escaping escaper.
The decoder models `json.Unmarshal` into `*PlanInfo`: a JSON object (or
`null`), unknown fields skipped, the `binaries` field an object mapping strings
to strings (or `null`), later duplicate keys overwriting earlier ones.
Decoder diagnostics are abbreviated to stable strings; number syntax inside
skipped unknown fields and the decoder's nesting limit are modelled loosely
(a depth budget standing in for Go's depth limit) — no theorem depends on
either. -/

/-- Models one character of `encoding/json`'s string escaper (HTML escaping
on): `"`, the backslash and the control characters are escaped (newline,
carriage return and tab by name, others as `\u00xx`), `<` `>` `&` as their
`\u00xx` forms, U+2028/U+2029 as `\u2028`/`\u2029`; all other characters are
emitted as they are. -/
def escapeChar (c : Char) : List Char :=
  if c = '"' then ['\\', '"']
  else if c = '\\' then ['\\', '\\']
  else if c = '\n' then ['\\', 'n']
  else if c = '\r' then ['\\', 'r']
  else if c = '\t' then ['\\', 't']
  else if c.toNat < 0x80 then
    if 0x20 ≤ c.toNat ∧ c ≠ '<' ∧ c ≠ '>' ∧ c ≠ '&' then [c]
    else ['\\', 'u', '0', '0', hexDigitChar (c.toNat / 16), hexDigitChar (c.toNat % 16)]
  else if c.toNat = 0x2028 ∨ c.toNat = 0x2029 then
    ['\\', 'u', '2', '0', '2', hexDigitChar (c.toNat % 16)]
  else [c]

/-- The escaped form of a string's characters. -/
def escapeString (s : String) : List Char := (s.data.map escapeChar).flatten

/-- A JSON string literal: quote, escaped characters, quote. -/
def quoteJSON (s : String) : List Char := '"' :: (escapeString s ++ ['"'])

/-- Lexicographic order on character lists.  For strings this scalar-value
order agrees with Go's byte-wise (UTF-8) string order, the order in which
`json.Marshal` emits map keys. -/
def charListLE : List Char → List Char → Bool
  | [], _ => true
  | _ :: _, [] => false
  | a :: as, b :: bs => if a = b then charListLE as bs else decide (a < b)

/-- Byte-wise string order, see `charListLE`. -/
def strLE (a b : String) : Bool := charListLE a.data b.data

/-- Insert an entry into a key-sorted entry list, keeping it sorted. -/
def insertSorted (e : String × String) : List (String × String) → List (String × String)
  | [] => [e]
  | f :: t => if strLE e.1 f.1 then e :: f :: t else f :: insertSorted e t

/-- Sort entries by key ascending — the order `json.Marshal` emits map keys. -/
def sortByKey (l : List (String × String)) : List (String × String) := l.foldr insertSorted []

/-- The members of a JSON object of strings, comma-separated, no whitespace —
as `json.Marshal` emits a `map[string]string`. -/
def serializeEntries : List (String × String) → List Char
  | [] => []
  | [(k, v)] => quoteJSON k ++ ':' :: quoteJSON v
  | (k, v) :: rest => quoteJSON k ++ ':' :: quoteJSON v ++ ',' :: serializeEntries rest

/-- Models `json.Marshal` of a `PlanInfo` value: the object with the single
field `binaries` holding the map object with sorted keys. -/
def serializePlanInfo (p : PlanInfo) : String :=
  String.mk ('\x7b' :: (quoteJSON "binaries" ++ ':' :: '\x7b' ::
    (serializeEntries (sortByKey p.Binaries) ++ ['\x7d', '\x7d'])))

/-- JSON inter-token whitespace. -/
def isJSONWS (c : Char) : Bool := c = ' ' || c = '\t' || c = '\n' || c = '\r'

/-- Drop leading JSON whitespace. -/
def skipWS : List Char → List Char
  | [] => []
  | c :: t => if isJSONWS c then skipWS t else c :: t

/-- The value of a four-digit hexadecimal escape. -/
def fromHex4 (a b c d : Char) : Option Nat :=
  match fromHexChar a, fromHexChar b, fromHexChar c, fromHexChar d with
  | some x, some y, some z, some w => some (((x * 16 + y) * 16 + z) * 16 + w)
  | _, _, _, _ => none

/-- A high-surrogate code unit. -/
def isHighSurrogate (n : Nat) : Bool := 0xD800 ≤ n && n < 0xDC00

/-- A low-surrogate code unit. -/
def isLowSurrogate (n : Nat) : Bool := 0xDC00 ≤ n && n < 0xE000

/-- Scan a JSON string body (the opening quote already consumed) into the
scalar values its escapes and characters denote — surrogate halves from
`\uXXXX` escapes kept as their code-unit values, paired by `unitsToChars` —
and the remainder after the closing quote.  The accepted escapes are those of
`encoding/json`: `\" \\ \/ \b \f \n \r \t \uXXXX`; unescaped control
characters are rejected. -/
def parseJSONUnits : Nat → List Char → Option (List Nat × List Char)
  | 0, _ => none
  | _ + 1, [] => none
  | fuel + 1, c :: t =>
    if c = '"' then some ([], t)
    else if c = '\\' then
      match t with
      | [] => none
      | e :: t2 =>
        if e = '"' then (parseJSONUnits fuel t2).map fun r => (0x22 :: r.1, r.2)
        else if e = '\\' then (parseJSONUnits fuel t2).map fun r => (0x5c :: r.1, r.2)
        else if e = '/' then (parseJSONUnits fuel t2).map fun r => (0x2f :: r.1, r.2)
        else if e = 'b' then (parseJSONUnits fuel t2).map fun r => (0x08 :: r.1, r.2)
        else if e = 'f' then (parseJSONUnits fuel t2).map fun r => (0x0c :: r.1, r.2)
        else if e = 'n' then (parseJSONUnits fuel t2).map fun r => (0x0a :: r.1, r.2)
        else if e = 'r' then (parseJSONUnits fuel t2).map fun r => (0x0d :: r.1, r.2)
        else if e = 't' then (parseJSONUnits fuel t2).map fun r => (0x09 :: r.1, r.2)
        else if e = 'u' then
          match t2 with
          | a :: b :: c2 :: d :: t3 =>
            match fromHex4 a b c2 d with
            | none => none
            | some n => (parseJSONUnits fuel t3).map fun r => (n :: r.1, r.2)
          | _ => none
        else none
    else if c.toNat < 0x20 then none
    else (parseJSONUnits fuel t).map fun r => (c.toNat :: r.1, r.2)

/-- Combine scanned code units into characters, one unit at a time; the first
argument holds a pending high surrogate waiting for its low half. -/
def unitsAux : Option Nat → List Nat → List Char
  | none, [] => []
  | none, u :: t =>
    if isHighSurrogate u then unitsAux (some u) t
    else if isLowSurrogate u then Char.ofNat 0xFFFD :: unitsAux none t
    else Char.ofNat u :: unitsAux none t
  | some _, [] => [Char.ofNat 0xFFFD]
  | some h, u :: t =>
    if isLowSurrogate u then
      Char.ofNat (0x10000 + (h - 0xD800) * 0x400 + (u - 0xDC00)) :: unitsAux none t
    else if isHighSurrogate u then Char.ofNat 0xFFFD :: unitsAux (some u) t
    else Char.ofNat 0xFFFD :: Char.ofNat u :: unitsAux none t

/-- Combine the scanned code units into characters, as `encoding/json`'s
`unquoteBytes` does: a high surrogate followed immediately by a low surrogate
forms one character; an unpaired surrogate becomes U+FFFD.  (Units from raw
characters are scalar values and are never surrogates, so only adjacent
`\uXXXX` escapes can pair — exactly Go's behaviour.) -/
def unitsToChars (l : List Nat) : List Char := unitsAux none l

/-- Decode a JSON string body: scan (the scan consumes at least one input
character per step, so a budget of one more than the input length never runs
out), then pair surrogates. -/
def parseJSONStr (l : List Char) : Option (List Char × List Char) :=
  (parseJSONUnits (l.length + 1) l).map fun r => (unitsToChars r.1, r.2)

/-- A character that can occur in a JSON number token. -/
def isNumChar (c : Char) : Bool :=
  ('0' ≤ c && c ≤ '9') || c = '-' || c = '+' || c = '.' || c = 'e' || c = 'E'

/-- Drop a number token. -/
def dropNum : List Char → List Char
  | [] => []
  | c :: t => if isNumChar c then dropNum t else c :: t

mutual

/-- Skip one arbitrary JSON value (used for unknown fields, which `Unmarshal`
ignores), returning the remainder.  The depth budget stands in for the
scanner's nesting limit. -/
def skipJSONValue : Nat → List Char → Option (List Char)
  | 0, _ => none
  | fuel + 1, l =>
    match skipWS l with
    | '"' :: t => (parseJSONStr t).map Prod.snd
    | '\x7b' :: t => skipObjBody fuel t true
    | '[' :: t => skipArrBody fuel t true
    | 't' :: 'r' :: 'u' :: 'e' :: t => some t
    | 'f' :: 'a' :: 'l' :: 's' :: 'e' :: t => some t
    | 'n' :: 'u' :: 'l' :: 'l' :: t => some t
    | c :: t => if isNumChar c then some (dropNum (c :: t)) else none
    | [] => none

/-- Skip the members of an object being ignored, after its `\x7b`; `allowEnd`
is false right after a comma, where a further member is required. -/
def skipObjBody : Nat → List Char → Bool → Option (List Char)
  | 0, _, _ => none
  | fuel + 1, l, allowEnd =>
    match skipWS l with
    | '\x7d' :: t => if allowEnd then some t else none
    | '"' :: t =>
      match parseJSONStr t with
      | none => none
      | some (_, l1) =>
        match skipWS l1 with
        | ':' :: l2 =>
          match skipJSONValue fuel l2 with
          | none => none
          | some l3 =>
            match skipWS l3 with
            | ',' :: l4 => skipObjBody fuel l4 false
            | '\x7d' :: l4 => some l4
            | _ => none
        | _ => none
    | _ => none

/-- Skip the elements of an array being ignored, after its `[`. -/
def skipArrBody : Nat → List Char → Bool → Option (List Char)
  | 0, _, _ => none
  | fuel + 1, l, allowEnd =>
    match skipWS l with
    | ']' :: t => if allowEnd then some t else none
    | l' =>
      match skipJSONValue fuel l' with
      | none => none
      | some l1 =>
        match skipWS l1 with
        | ',' :: l2 => skipArrBody fuel l2 false
        | ']' :: l2 => some l2
        | _ => none

end

/-- Go map assignment `m[k] = v`: overwrite the key's entry or append it. -/
def setEntry : List (String × String) → String → String → List (String × String)
  | [], k, v => [(k, v)]
  | (k0, v0) :: t, k, v => if k0 = k then (k0, v) :: t else (k0, v0) :: setEntry t k v

/-- Decode the members of the `binaries` object (after its `\x7b`) into the
accumulated map: string or `null` values only (a `null` stores the zero value
`""`), later duplicates overwriting. -/
def decodeStrMap : Nat → List Char → Bool → List (String × String) →
    Option (List (String × String) × List Char)
  | 0, _, _, _ => none
  | fuel + 1, l, allowEnd, acc =>
    match skipWS l with
    | [] => none
    | c :: t =>
      if c = '\x7d' then if allowEnd then some (acc, t) else none
      else if c = '"' then
        match parseJSONStr t with
        | none => none
        | some (k, l1) =>
          match skipWS l1 with
          | [] => none
          | c1 :: l2 =>
            if c1 = ':' then
              let valueStep : Option (List (String × String) × List Char) :=
                match skipWS l2 with
                | [] => none
                | c2 :: l3 =>
                  if c2 = '"' then
                    match parseJSONStr l3 with
                    | none => none
                    | some (v, l4) => some (setEntry acc (String.mk k) (String.mk v), l4)
                  else if c2 = 'n' then
                    match l3 with
                    | 'u' :: 'l' :: 'l' :: l4 => some (setEntry acc (String.mk k) "", l4)
                    | _ => none
                  else none
              match valueStep with
              | none => none
              | some (acc2, l4) =>
                match skipWS l4 with
                | [] => none
                | c3 :: l5 =>
                  if c3 = ',' then decodeStrMap fuel l5 false acc2
                  else if c3 = '\x7d' then some (acc2, l5)
                  else none
            else none
      else none

/-- Decode the members of the top-level object (after its `\x7b`): the
`binaries` field decodes into the map (merging, as `Unmarshal` reuses a non-nil
map), any other field's value is skipped. -/
def decodeTopBody : Nat → List Char → Bool → List (String × String) →
    Option (List (String × String) × List Char)
  | 0, _, _, _ => none
  | fuel + 1, l, allowEnd, acc =>
    match skipWS l with
    | [] => none
    | c :: t =>
      if c = '\x7d' then if allowEnd then some (acc, t) else none
      else if c = '"' then
        match parseJSONStr t with
        | none => none
        | some (k, l1) =>
          match skipWS l1 with
          | [] => none
          | c1 :: l2 =>
            if c1 = ':' then
              let fieldStep : Option (List (String × String) × List Char) :=
                if String.mk k = "binaries" then
                  match skipWS l2 with
                  | [] => none
                  | c2 :: l3 =>
                    if c2 = 'n' then
                      match l3 with
                      | 'u' :: 'l' :: 'l' :: l4 => some (acc, l4)
                      | _ => none
                    else if c2 = '\x7b' then decodeStrMap fuel l3 true acc
                    else none
                else (skipJSONValue fuel l2).map fun l3 => (acc, l3)
              match fieldStep with
              | none => none
              | some (acc2, l3) =>
                match skipWS l3 with
                | [] => none
                | c3 :: l4 =>
                  if c3 = ',' then decodeTopBody fuel l4 false acc2
                  else if c3 = '\x7d' then some (acc2, l4)
                  else none
            else none
      else none

/-- Models `json.Unmarshal(data, &planInfo)` for the `PlanInfo` shape: a JSON
object (or `null`, leaving the zero value) with nothing but whitespace after
it; diagnostics are abbreviated to stable strings. -/
def decodePlanInfo (s : String) : Except String PlanInfo :=
  match skipWS s.data with
  | [] => .error "unexpected end of JSON input"
  | c :: t =>
    if c = 'n' then
      match t with
      | 'u' :: 'l' :: 'l' :: t2 =>
        if skipWS t2 = [] then .ok ⟨[]⟩
        else .error "invalid character after top-level value"
      | _ => .error "invalid character"
    else if c = '\x7b' then
      match decodeTopBody (s.data.length + 2) t true [] with
      | none => .error "invalid character"
      | some (bins, rest) =>
        if skipWS rest = [] then .ok ⟨bins⟩
        else .error "invalid character after top-level value"
    else .error "json: cannot unmarshal value into Go value of type planinfo.PlanInfo"

/-! ## The plan-info parser -/

/-- Models `strings.TrimSpace` (Unicode white space as defined by
`unicode.IsSpace`: the ASCII white-space characters, NEL, NBSP and the Unicode
space/line/paragraph separators). -/
def isGoSpace (c : Char) : Bool :=
  let n := c.toNat
  n = 9 || n = 10 || n = 11 || n = 12 || n = 13 || n = 32 || n = 0x85 || n = 0xA0 ||
    n = 0x1680 || (0x2000 ≤ n && n ≤ 0x200a) || n = 0x2028 || n = 0x2029 ||
    n = 0x202f || n = 0x205f || n = 0x3000

/-- `strings.TrimSpace(s)`: drop leading and trailing white space. -/
def trimGo (s : String) : String :=
  String.mk (((s.data.dropWhile isGoSpace).reverse.dropWhile isGoSpace).reverse)

/-- Modelled from the spec: `DownloadPlanInfoFromURL` — its source is not part
of the examined material; it performs an HTTP GET against the url and returns
the response body (or a network error).  Modelled as an oracle parameter of
`ParsePlanInfo`. -/
abbrev PlanInfoFetcher := String → Except String String

/-- `ParsePlanInfo` parses an info string into a map of os/arch strings to URL
string: trim the string; if it parses as a url, download it and treat the
result as the real info (propagating a download error); then decode the JSON,
wrapping a decode failure as "could not parse plan info". -/
def ParsePlanInfo (download : PlanInfoFetcher) (infoStr : String) :
    Except String PlanInfo :=
  let t := trimGo infoStr
  match (if goURLParseOk t then download t else .ok t) with
  | .error e => .error e
  | .ok body =>
    match decodePlanInfo body with
    | .error e => .error ("could not parse plan info: " ++ e)
    | .ok p => .ok p

/-! ## Derived notions used in theorem statements -/

/-- Perform the Go map assignments `m[k] = v` for each entry in order,
starting from `acc`. -/
def assignAll (acc : List (String × String)) (l : List (String × String)) :
    List (String × String) :=
  l.foldl (fun a e => setEntry a e.1 e.2) acc

/-! ## Theorems: the basic validator -/

theorem validateBasic_of_len_zero (m : BinaryDownloadURLMap) (h : m.length = 0) :
    BinaryDownloadURLMap.ValidateBasic m = .error "no \"binaries\" entries found" := by
  rw [BinaryDownloadURLMap.ValidateBasic, if_pos h]

/-- C7 counterexample: the empty-map error message is
`no "binaries" entries found` — with quotation marks around `binaries`
(the source writes `errors.New("no \"binaries\" entries found")`) — and not
the literal `no binaries entries found` the claim states. -/
theorem C7_counterexample :
    BinaryDownloadURLMap.ValidateBasic [] = .error "no \"binaries\" entries found" ∧
    "no \"binaries\" entries found" ≠ "no binaries entries found" :=
  ⟨rfl, by decide⟩

/-- C7 (amended): for every binaries map with zero entries, `ValidateBasic`
returns the error whose message is exactly `no "binaries" entries found`
(with quotation marks around `binaries`), before examining any keys or
values. -/
theorem C7_empty_map (m : BinaryDownloadURLMap) (h : m.length = 0) :
    BinaryDownloadURLMap.ValidateBasic m = .error "no \"binaries\" entries found" :=
  validateBasic_of_len_zero m h

/-- Witness for C7 at the empty map. -/
theorem C7_witness :
    BinaryDownloadURLMap.ValidateBasic [] = .error "no \"binaries\" entries found" :=
  C7_empty_map [] rfl

/-- C2: `ValidateFull` returns a `ValidateBasic` error unchanged, with the
filesystem untouched and no fetch-and-verify invocation (so no network
access); when `ValidateBasic` succeeds it returns exactly the result of
`CheckURLs`; and for an empty binaries map it returns the empty-table error
with the filesystem untouched and no invocation. -/
theorem C2_orchestration (p : PlanInfo) (daemonName : String) (fs : FileSys)
    (mkTemp : TempDirOracle) (dl : Downloader) :
    (∀ e, p.Binaries.ValidateBasic = .error e →
      p.ValidateFull mkTemp dl daemonName fs = (.error e, fs, [])) ∧
    (p.Binaries.ValidateBasic = .ok () →
      p.ValidateFull mkTemp dl daemonName fs =
        BinaryDownloadURLMap.CheckURLs mkTemp dl p.Binaries daemonName fs) ∧
    (p.Binaries = [] →
      p.ValidateFull mkTemp dl daemonName fs =
        (.error "no \"binaries\" entries found", fs, [])) := by
  refine ⟨?_, ?_, ?_⟩
  · intro e h
    rw [PlanInfo.ValidateFull, h]
  · intro h
    rw [PlanInfo.ValidateFull, h]
  · intro h
    rw [PlanInfo.ValidateFull, validateBasic_of_len_zero p.Binaries (by rw [h]; rfl)]

/-- Witness for C2 on the empty plan: the empty-table error, no filesystem
change, no invocation. -/
theorem C2_witness :
    PlanInfo.ValidateFull (fun _ => .error "mk") (fun _ _ _ fs => (.ok (), fs))
      ⟨[]⟩ "mydaemon" ["x"] = (.error "no \"binaries\" entries found", ["x"], []) :=
  (C2_orchestration ⟨[]⟩ "mydaemon" ["x"] (fun _ => .error "mk")
    (fun _ _ _ fs => (.ok (), fs))).2.2 rfl

/-! ## Theorems: the artifact checker -/

/-- C3: whenever `CheckURLs` succeeds in creating its scratch directory `d`,
no path equal to `d` or inside `d` exists in the filesystem it returns — on
every exit path (the `defer os.RemoveAll` runs on success, on a per-platform
download failure, and on any other loop exit). -/
theorem C3_scratch_removed (mkTemp : TempDirOracle) (dl : Downloader)
    (m : BinaryDownloadURLMap) (daemonName : String) (fs : FileSys) (d : String)
    (h : mkTemp fs = .ok d) :
    ∀ p ∈ (BinaryDownloadURLMap.CheckURLs mkTemp dl m daemonName fs).2.1,
      underDir d p = false := by
  intro p hp
  rw [BinaryDownloadURLMap.CheckURLs, h] at hp
  simp only [removeAll, List.mem_filter, Bool.not_eq_true'] at hp
  exact hp.2

/-- Witness for C3: a run whose downloader writes into the scratch directory;
the surviving path is not under it. -/
theorem C3_witness : underDir "/tmp/t" "/keep" = false :=
  C3_scratch_removed (fun _ => .ok "/tmp/t") (fun dst _ _ fs => (.ok (), dst :: fs))
    [("linux/amd64", "u")] "mydaemon" ["/keep"] "/tmp/t" rfl "/keep" (by decide)

/-- C10: on an empty binaries map (when the scratch directory is created
successfully) `CheckURLs` returns success with no fetch-and-verify invocation,
and — when the scratch directory is fresh — the filesystem it returns is
exactly the one it started from. -/
theorem C10_empty_check (mkTemp : TempDirOracle) (dl : Downloader)
    (daemonName : String) (fs : FileSys) (d : String) (h : mkTemp fs = .ok d) :
    BinaryDownloadURLMap.CheckURLs mkTemp dl [] daemonName fs =
      (.ok (), removeAll d (d :: fs), []) ∧
    ((∀ p ∈ fs, underDir d p = false) →
      (BinaryDownloadURLMap.CheckURLs mkTemp dl [] daemonName fs).2.1 = fs) := by
  constructor
  · rw [BinaryDownloadURLMap.CheckURLs, h]
    rfl
  · intro hfresh
    rw [BinaryDownloadURLMap.CheckURLs, h]
    show removeAll d (d :: fs) = fs
    rw [removeAll, List.filter_cons]
    have hd : underDir d d = true := by simp [underDir]
    rw [hd]
    simp only [Bool.not_true, if_neg (by simp : ¬(false = true))]
    exact List.filter_eq_self.mpr fun p hp => by rw [hfresh p hp]; rfl

/-- Witness for C10 at a concrete oracle and filesystem. -/
theorem C10_witness :
    BinaryDownloadURLMap.CheckURLs (fun _ => .ok "t")
      (fun dst _ _ fs => (.ok (), dst :: fs)) [] "mydaemon" ["x"] =
      (.ok (), removeAll "t" ("t" :: ["x"]), []) :=
  (C10_empty_check (fun _ => .ok "t") (fun dst _ _ fs => (.ok (), dst :: fs))
    "mydaemon" ["x"] "t" rfl).1

theorem checkLoop_error (dl : Downloader) (dn td : String) :
    ∀ (m : BinaryDownloadURLMap) (fs : FileSys) (c : String),
      (checkLoop dl dn td m fs).1 = .error c →
      ∃ pre k u post cause, m = pre ++ (k, u) :: post ∧
        c = "error downloading binary for os/arch " ++ k ++ ": " ++ cause ∧
        (checkLoop dl dn td m fs).2.2.map Invocation.osArch =
          pre.map Prod.fst ++ [k] := by
  intro m
  induction m with
  | nil => intro fs c h; exact absurd h (by simp [checkLoop])
  | cons e rest ih =>
    obtain ⟨k0, u0⟩ := e
    intro fs c h
    rcases hdl : dl (td ++ "/" ++ replSlashDash k0) u0 dn fs with ⟨res, fs'⟩
    rw [checkLoop, hdl] at h ⊢
    cases res with
    | error e0 =>
      dsimp only at h ⊢
      exact ⟨[], k0, u0, rest, e0, by simp, ((Except.error.injEq _ _).mp h).symm, by simp⟩
    | ok u =>
      cases u
      dsimp only at h ⊢
      obtain ⟨pre, k, u, post, cause, hm, hc, htr⟩ := ih fs' c h
      exact ⟨(k0, u0) :: pre, k, u, post, cause, by rw [hm]; rfl, hc, by simp [htr]⟩

theorem checkLoop_ok (dl : Downloader) (dn td : String) :
    ∀ (m : BinaryDownloadURLMap) (fs : FileSys),
      (checkLoop dl dn td m fs).1 = .ok () →
      (checkLoop dl dn td m fs).2.2.map Invocation.osArch = m.map Prod.fst ∧
      ∀ i ∈ (checkLoop dl dn td m fs).2.2, i.result = .ok () := by
  intro m
  induction m with
  | nil => intro fs _; simp [checkLoop]
  | cons e rest ih =>
    obtain ⟨k0, u0⟩ := e
    intro fs h
    rcases hdl : dl (td ++ "/" ++ replSlashDash k0) u0 dn fs with ⟨res, fs'⟩
    rw [checkLoop, hdl] at h ⊢
    cases res with
    | error e0 => exact absurd h (by simp)
    | ok u =>
      cases u
      dsimp only at h ⊢
      obtain ⟨h1, h2⟩ := ih fs' h
      refine ⟨by simp [h1], ?_⟩
      intro i hi
      rcases List.mem_cons.mp hi with hi | hi
      · rw [hi]
      · exact h2 i hi

theorem checkLoop_dstRoot (dl : Downloader) (dn td : String) :
    ∀ (m : BinaryDownloadURLMap) (fs : FileSys),
      ∀ i ∈ (checkLoop dl dn td m fs).2.2,
        i.dstRoot = td ++ "/" ++ replSlashDash i.osArch := by
  intro m
  induction m with
  | nil => intro fs i hi; exact absurd hi (by simp [checkLoop])
  | cons e rest ih =>
    obtain ⟨k0, u0⟩ := e
    intro fs i hi
    rcases hdl : dl (td ++ "/" ++ replSlashDash k0) u0 dn fs with ⟨res, fs'⟩
    rw [checkLoop, hdl] at hi
    cases res with
    | error e0 =>
      dsimp only at hi
      simp only [List.mem_singleton] at hi
      rw [hi]
    | ok u =>
      cases u
      dsimp only at hi
      rcases List.mem_cons.mp hi with hi | hi
      · rw [hi]
      · exact ih fs' i hi

/-- C4: when the scratch directory is created, a `CheckURLs` error is always a
download failure at some entry of the map: the message wraps the underlying
cause and names that entry's platform key, the entries before it (in iteration
order) are exactly the ones fetched before it, and nothing after it is
fetched; and `CheckURLs` succeeds only if every entry was fetched and every
fetch succeeded. -/
theorem C4_fail_fast (mkTemp : TempDirOracle) (dl : Downloader)
    (m : BinaryDownloadURLMap) (daemonName : String) (fs : FileSys) (d : String)
    (h : mkTemp fs = .ok d) :
    (∀ c, (BinaryDownloadURLMap.CheckURLs mkTemp dl m daemonName fs).1 = .error c →
      ∃ pre k u post cause, m = pre ++ (k, u) :: post ∧
        c = "error downloading binary for os/arch " ++ k ++ ": " ++ cause ∧
        (BinaryDownloadURLMap.CheckURLs mkTemp dl m daemonName fs).2.2.map
          Invocation.osArch = pre.map Prod.fst ++ [k]) ∧
    ((BinaryDownloadURLMap.CheckURLs mkTemp dl m daemonName fs).1 = .ok () →
      (BinaryDownloadURLMap.CheckURLs mkTemp dl m daemonName fs).2.2.map
        Invocation.osArch = m.map Prod.fst ∧
      ∀ i ∈ (BinaryDownloadURLMap.CheckURLs mkTemp dl m daemonName fs).2.2,
        i.result = .ok ()) := by
  rw [BinaryDownloadURLMap.CheckURLs, h]
  exact ⟨fun c hc => checkLoop_error dl daemonName d m (d :: fs) c hc,
    fun hc => checkLoop_ok dl daemonName d m (d :: fs) hc⟩

/-- Witness for C4: a downloader failing on the only entry. -/
theorem C4_witness :
    ∃ pre k u post cause,
      ([("a/b", "u1")] : BinaryDownloadURLMap) = pre ++ (k, u) :: post ∧
      "error downloading binary for os/arch a/b: boom" =
        "error downloading binary for os/arch " ++ k ++ ": " ++ cause ∧
      (BinaryDownloadURLMap.CheckURLs (fun _ => .ok "t")
        (fun _ _ _ fs => (.error "boom", fs)) [("a/b", "u1")] "mydaemon" []).2.2.map
        Invocation.osArch = pre.map Prod.fst ++ [k] :=
  (C4_fail_fast (fun _ => .ok "t") (fun _ _ _ fs => (.error "boom", fs))
    [("a/b", "u1")] "mydaemon" [] "t" rfl).1 _ rfl

theorem splitFirstSlash_spec :
    ∀ (l a b : List Char), splitFirstSlash l = some (a, b) →
      l = a ++ '/' :: b ∧ '/' ∉ a := by
  intro l
  induction l with
  | nil => intro a b h; exact absurd h (by simp [splitFirstSlash])
  | cons c t ih =>
    intro a b h
    rw [splitFirstSlash] at h
    by_cases hc : c = '/'
    · rw [if_pos hc] at h
      obtain ⟨ha, hb⟩ : ([] : List Char) = a ∧ t = b := by
        simpa using h
      subst ha; subst hb; subst hc
      simp
    · rw [if_neg hc] at h
      cases hs : splitFirstSlash t with
      | none => rw [hs] at h; simp at h
      | some p =>
        obtain ⟨a', b'⟩ := p
        rw [hs] at h
        obtain ⟨ha, hb⟩ : c :: a' = a ∧ b' = b := by
          simpa using h
        subst ha; subst hb
        obtain ⟨h1, h2⟩ := ih a' b' hs
        constructor
        · rw [List.cons_append, ← h1]
        · intro hmem
          rcases List.mem_cons.mp hmem with hmem | hmem
          · exact hc hmem.symm
          · exact h2 hmem

theorem alnum_no_slash_dash {c : Char} (h : isAlnumChar c = true) :
    c ≠ '/' ∧ c ≠ '-' := by
  constructor
  · intro e; subst e; exact absurd h (by decide)
  · intro e; subst e; exact absurd h (by decide)

theorem alnum_map_id :
    ∀ l : List Char, l.all isAlnumChar = true →
      (l.map fun c => if c = '/' then '-' else c) = l := by
  intro l
  induction l with
  | nil => intro _; rfl
  | cons c t ih =>
    intro h
    rw [List.all_cons, Bool.and_eq_true] at h
    rw [List.map_cons, if_neg (alnum_no_slash_dash h.1).1, ih h.2]

theorem no_dash_of_alnum :
    ∀ l : List Char, l.all isAlnumChar = true → '-' ∉ l := by
  intro l
  induction l with
  | nil => intro _; simp
  | cons c t ih =>
    intro h hmem
    rw [List.all_cons, Bool.and_eq_true] at h
    rcases List.mem_cons.mp hmem with hmem | hmem
    · exact (alnum_no_slash_dash h.1).2 hmem.symm
    · exact ih h.2 hmem

theorem dash_split_unique :
    ∀ (a₁ a₂ b₁ b₂ : List Char), '-' ∉ a₁ → '-' ∉ a₂ →
      a₁ ++ '-' :: b₁ = a₂ ++ '-' :: b₂ → a₁ = a₂ ∧ b₁ = b₂ := by
  intro a₁
  induction a₁ with
  | nil =>
    intro a₂ b₁ b₂ _ h₂ heq
    cases a₂ with
    | nil => simpa using heq
    | cons y t₂ =>
      rw [List.nil_append, List.cons_append, List.cons_eq_cons] at heq
      exact absurd (heq.1 ▸ List.mem_cons_self _ _) h₂
  | cons x t₁ ih =>
    intro a₂ b₁ b₂ h₁ h₂ heq
    cases a₂ with
    | nil =>
      rw [List.nil_append, List.cons_append, List.cons_eq_cons] at heq
      exact absurd (heq.1 ▸ List.mem_cons_self _ _) h₁
    | cons y t₂ =>
      rw [List.cons_append, List.cons_append, List.cons_eq_cons] at heq
      obtain ⟨ht, hb⟩ := ih t₂ b₁ b₂ (fun hm => h₁ (List.mem_cons_of_mem _ hm))
        (fun hm => h₂ (List.mem_cons_of_mem _ hm)) heq.2
      exact ⟨by rw [heq.1, ht], hb⟩

theorem anchored_decomp (s : String) (h : specOsArchAnchored s = true) :
    ∃ a b, s.data = a ++ '/' :: b ∧ a.all isAlnumChar = true ∧
      b.all isAlnumChar = true := by
  rw [specOsArchAnchored] at h
  cases hs : splitFirstSlash s.data with
  | none => rw [hs] at h; simp at h
  | some p =>
    obtain ⟨a, b⟩ := p
    rw [hs] at h
    simp only [Bool.and_eq_true] at h
    exact ⟨a, b, (splitFirstSlash_spec _ a b hs).1, h.1.2, h.2⟩

/-- C5 counterexample: the keys `"a/b-c"` and `"a-b/c"` are distinct, both
pass `ValidateBasic`'s (unanchored) key check, and both derive the same
destination subdirectory `"a-b-c"` — so the derivation is *not* injective on
the keys the code accepts. -/
theorem C5_counterexample :
    containsOsArch "a/b-c" = true ∧ containsOsArch "a-b/c" = true ∧
    "a/b-c" ≠ "a-b/c" ∧ replSlashDash "a/b-c" = replSlashDash "a-b/c" :=
  ⟨rfl, rfl, by decide, rfl⟩

/-- C5 (amended): `CheckURLs` derives each destination subdirectory by
replacing `/` with `-` in the platform key (every recorded invocation's
`dstRoot` is the scratch directory joined with that derivation), and the
derivation is injective on keys that are `"any"` or match the *anchored*
pattern `^[a-zA-Z0-9]+/[a-zA-Z0-9]+$` — but not, as the claim stated, on all
keys accepted by `ValidateBasic`'s unanchored check (see the
counterexample). -/
theorem C5_dst_derivation :
    (∀ (mkTemp : TempDirOracle) (dl : Downloader) (m : BinaryDownloadURLMap)
        (daemonName : String) (fs : FileSys) (d : String), mkTemp fs = .ok d →
      ∀ i ∈ (BinaryDownloadURLMap.CheckURLs mkTemp dl m daemonName fs).2.2,
        i.dstRoot = d ++ "/" ++ replSlashDash i.osArch) ∧
    (∀ k₁ k₂ : String, (k₁ = "any" ∨ specOsArchAnchored k₁ = true) →
      (k₂ = "any" ∨ specOsArchAnchored k₂ = true) →
      replSlashDash k₁ = replSlashDash k₂ → k₁ = k₂) := by
  constructor
  · intro mkT dl m dn fs d h i hi
    rw [BinaryDownloadURLMap.CheckURLs, h] at hi
    exact checkLoop_dstRoot dl dn d m (d :: fs) i hi
  · intro k₁ k₂ h₁ h₂ heq
    have hdata : k₁.data.map (fun c => if c = '/' then '-' else c) =
        k₂.data.map (fun c => if c = '/' then '-' else c) := by
      have := congrArg String.data heq
      simpa [replSlashDash] using this
    have key : ∀ (a b : List Char), a.all isAlnumChar = true →
        b.all isAlnumChar = true →
        List.map (fun c => if c = '/' then '-' else c) (a ++ '/' :: b) =
          a ++ '-' :: b := by
      intro a b ha hb
      rw [List.map_append, List.map_cons, alnum_map_id a ha, alnum_map_id b hb]
      simp
    rcases h₁ with h₁ | h₁ <;> rcases h₂ with h₂ | h₂
    · rw [h₁, h₂]
    · obtain ⟨a, b, hd, haA, hbA⟩ := anchored_decomp k₂ h₂
      subst h₁
      have hany : (['a', 'n', 'y'] : List Char) = a ++ '-' :: b := by
        calc (['a', 'n', 'y'] : List Char)
            = ("any" : String).data.map (fun c => if c = '/' then '-' else c) := rfl
          _ = k₂.data.map (fun c => if c = '/' then '-' else c) := hdata
          _ = (a ++ '/' :: b).map (fun c => if c = '/' then '-' else c) := by rw [hd]
          _ = a ++ '-' :: b := key a b haA hbA
      have : '-' ∈ (['a', 'n', 'y'] : List Char) := by
        rw [hany]
        exact List.mem_append_right _ (List.mem_cons_self _ _)
      exact absurd this (by decide)
    · obtain ⟨a, b, hd, haA, hbA⟩ := anchored_decomp k₁ h₁
      subst h₂
      have hany : (['a', 'n', 'y'] : List Char) = a ++ '-' :: b := by
        calc (['a', 'n', 'y'] : List Char)
            = ("any" : String).data.map (fun c => if c = '/' then '-' else c) := rfl
          _ = k₁.data.map (fun c => if c = '/' then '-' else c) := hdata.symm
          _ = (a ++ '/' :: b).map (fun c => if c = '/' then '-' else c) := by rw [hd]
          _ = a ++ '-' :: b := key a b haA hbA
      have : '-' ∈ (['a', 'n', 'y'] : List Char) := by
        rw [hany]
        exact List.mem_append_right _ (List.mem_cons_self _ _)
      exact absurd this (by decide)
    · obtain ⟨a₁, b₁, hd₁, haA₁, hbA₁⟩ := anchored_decomp k₁ h₁
      obtain ⟨a₂, b₂, hd₂, haA₂, hbA₂⟩ := anchored_decomp k₂ h₂
      have e : a₁ ++ '-' :: b₁ = a₂ ++ '-' :: b₂ := by
        calc a₁ ++ '-' :: b₁
            = (a₁ ++ '/' :: b₁).map (fun c => if c = '/' then '-' else c) :=
              (key a₁ b₁ haA₁ hbA₁).symm
          _ = k₁.data.map (fun c => if c = '/' then '-' else c) := by rw [hd₁]
          _ = k₂.data.map (fun c => if c = '/' then '-' else c) := hdata
          _ = (a₂ ++ '/' :: b₂).map (fun c => if c = '/' then '-' else c) := by rw [hd₂]
          _ = a₂ ++ '-' :: b₂ := key a₂ b₂ haA₂ hbA₂
      obtain ⟨ha, hb⟩ := dash_split_unique a₁ a₂ b₁ b₂ (no_dash_of_alnum a₁ haA₁)
        (no_dash_of_alnum a₂ haA₂) e
      have hdd : k₁.data = k₂.data := by rw [hd₁, hd₂, ha, hb]
      calc k₁ = String.mk k₁.data := rfl
        _ = String.mk k₂.data := congrArg String.mk hdd
        _ = k₂ := rfl

/-- Witness for C5: a concrete `CheckURLs` run, checking the recorded
destination of the `linux/amd64` entry. -/
theorem C5_witness :
    Invocation.dstRoot ⟨"linux/amd64", "t/linux-amd64", "u", .ok ()⟩ =
      "t" ++ "/" ++ replSlashDash "linux/amd64" :=
  (C5_dst_derivation).1 (fun _ => .ok "t") (fun dst _ _ fs => (.ok (), dst :: fs))
    [("linux/amd64", "u")] "mydaemon" [] "t" rfl
    ⟨"linux/amd64", "t/linux-amd64", "u", .ok ()⟩ (by decide)

/-! ## Theorems: JSON string escaping round-trips through the decoder -/

theorem fromHexChar_hexDigitChar (n : Nat) (h : n < 16) :
    fromHexChar (hexDigitChar n) = some n := by
  interval_cases n <;> rfl

theorem fromHex4_byte (n : Nat) (h : n < 256) :
    fromHex4 '0' '0' (hexDigitChar (n / 16)) (hexDigitChar (n % 16)) = some n := by
  rw [fromHex4, show fromHexChar '0' = some 0 from rfl,
    fromHexChar_hexDigitChar (n / 16) (by omega), fromHexChar_hexDigitChar (n % 16) (by omega)]
  dsimp only
  simp only [Option.some.injEq]
  omega

theorem fromHex4_u202x (r : Nat) (h : r < 16) :
    fromHex4 '2' '0' '2' (hexDigitChar r) = some (0x2020 + r) := by
  rw [fromHex4, show fromHexChar '2' = some 2 from rfl, show fromHexChar '0' = some 0 from rfl,
    fromHexChar_hexDigitChar r h]

theorem parseUnits_escapeChar (fuel : Nat) (c : Char) (l : List Char) :
    parseJSONUnits (fuel + 1) (escapeChar c ++ l) =
      (parseJSONUnits fuel l).map fun r => (c.toNat :: r.1, r.2) := by
  rw [escapeChar]
  by_cases h1 : c = '"'
  · rw [if_pos h1]; subst h1; rfl
  rw [if_neg h1]
  by_cases h2 : c = '\\'
  · rw [if_pos h2]; subst h2; rfl
  rw [if_neg h2]
  by_cases h3 : c = '\n'
  · rw [if_pos h3]; subst h3; rfl
  rw [if_neg h3]
  by_cases h4 : c = '\r'
  · rw [if_pos h4]; subst h4; rfl
  rw [if_neg h4]
  by_cases h5 : c = '\t'
  · rw [if_pos h5]; subst h5; rfl
  rw [if_neg h5]
  by_cases h6 : c.toNat < 0x80
  · rw [if_pos h6]
    by_cases h7 : 0x20 ≤ c.toNat ∧ c ≠ '<' ∧ c ≠ '>' ∧ c ≠ '&'
    · rw [if_pos h7]
      show parseJSONUnits (fuel + 1) (c :: l) = _
      rw [parseJSONUnits.eq_def]
      dsimp only
      rw [if_neg h1, if_neg h2, if_neg (by omega : ¬c.toNat < 0x20)]
    · rw [if_neg h7]
      have key : parseJSONUnits (fuel + 1) ('\\' :: 'u' :: '0' :: '0' ::
          hexDigitChar (c.toNat / 16) :: hexDigitChar (c.toNat % 16) :: l) =
          match fromHex4 '0' '0' (hexDigitChar (c.toNat / 16))
              (hexDigitChar (c.toNat % 16)) with
          | none => none
          | some n => (parseJSONUnits fuel l).map fun r => (n :: r.1, r.2) := rfl
      show parseJSONUnits (fuel + 1) ('\\' :: 'u' :: '0' :: '0' ::
        hexDigitChar (c.toNat / 16) :: hexDigitChar (c.toNat % 16) :: l) = _
      rw [key, fromHex4_byte c.toNat (by omega)]
  · rw [if_neg h6]
    by_cases h8 : c.toNat = 0x2028 ∨ c.toNat = 0x2029
    · rw [if_pos h8]
      have key : parseJSONUnits (fuel + 1) ('\\' :: 'u' :: '2' :: '0' :: '2' ::
          hexDigitChar (c.toNat % 16) :: l) =
          match fromHex4 '2' '0' '2' (hexDigitChar (c.toNat % 16)) with
          | none => none
          | some n => (parseJSONUnits fuel l).map fun r => (n :: r.1, r.2) := rfl
      show parseJSONUnits (fuel + 1) ('\\' :: 'u' :: '2' :: '0' :: '2' ::
        hexDigitChar (c.toNat % 16) :: l) = _
      rw [key, fromHex4_u202x (c.toNat % 16) (by omega)]
      have harith : 0x2020 + c.toNat % 16 = c.toNat := by
        rcases h8 with h | h <;> rw [h]
      simp only [harith]
    · rw [if_neg h8]
      show parseJSONUnits (fuel + 1) (c :: l) = _
      rw [parseJSONUnits.eq_def]
      dsimp only
      rw [if_neg h1, if_neg h2, if_neg (by omega : ¬c.toNat < 0x20)]

theorem char_toNat_not_surrogate (c : Char) :
    isHighSurrogate c.toNat = false ∧ isLowSurrogate c.toNat = false := by
  have h : c.toNat < 0xd800 ∨ 0xdfff < c.toNat ∧ c.toNat < 0x110000 := c.valid
  constructor <;> simp only [isHighSurrogate, isLowSurrogate] <;>
    simp only [Bool.and_eq_false_iff, decide_eq_false_iff_not, not_le, not_lt] <;> omega

theorem unitsAux_map_toNat : ∀ cs : List Char, unitsAux none (cs.map Char.toNat) = cs := by
  intro cs
  induction cs with
  | nil => rfl
  | cons c t ih =>
    rw [List.map_cons, unitsAux]
    simp only [(char_toNat_not_surrogate c).1, (char_toNat_not_surrogate c).2,
      Bool.false_eq_true, if_false]
    rw [Char.ofNat_toNat, ih]

theorem len_escapeChar_pos (c : Char) : 1 ≤ (escapeChar c).length := by
  rw [escapeChar]
  split_ifs <;> simp

theorem len_escape_ge : ∀ cs : List Char, cs.length ≤ ((cs.map escapeChar).flatten).length := by
  intro cs
  induction cs with
  | nil => simp
  | cons c t ih =>
    rw [List.map_cons, List.flatten_cons, List.length_append, List.length_cons]
    have := len_escapeChar_pos c
    omega

theorem parseUnits_escape :
    ∀ (cs : List Char) (fuel : Nat) (r : List Char), cs.length < fuel →
      parseJSONUnits fuel ((cs.map escapeChar).flatten ++ '"' :: r) =
        some (cs.map Char.toNat, r) := by
  intro cs
  induction cs with
  | nil =>
    intro fuel r h
    cases fuel with
    | zero => omega
    | succ f => rfl
  | cons c t ih =>
    intro fuel r h
    cases fuel with
    | zero => omega
    | succ f =>
      rw [List.map_cons, List.flatten_cons, List.append_assoc,
        parseUnits_escapeChar f c _, ih f r (by simp at h; omega)]
      rfl

theorem parseStr_escape (s : String) (rest : List Char) :
    parseJSONStr (escapeString s ++ '"' :: rest) = some (s.data, rest) := by
  have h1 := len_escape_ge s.data
  have hlen : s.data.length <
      ((s.data.map escapeChar).flatten ++ '"' :: rest).length + 1 := by
    rw [List.length_append, List.length_cons]
    omega
  rw [parseJSONStr, show escapeString s = (s.data.map escapeChar).flatten from rfl,
    parseUnits_escape s.data _ rest hlen]
  dsimp only [Option.map]
  rw [unitsToChars, unitsAux_map_toNat]

theorem decodeStrMap_member (f : Nat) (k v : String) (acc : List (String × String))
    (allowEnd : Bool) (SEP : List Char) :
    decodeStrMap (f + 1)
      ('"' :: (escapeString k ++ '"' :: (':' :: '"' :: (escapeString v ++ '"' :: SEP))))
      allowEnd acc =
      match skipWS SEP with
      | [] => none
      | c3 :: l5 =>
        if c3 = ',' then decodeStrMap f l5 false (setEntry acc k v)
        else if c3 = '\x7d' then some (setEntry acc k v, l5)
        else none := by
  rw [decodeStrMap]
  rw [show skipWS ('"' :: (escapeString k ++ '"' ::
    (':' :: '"' :: (escapeString v ++ '"' :: SEP)))) = '"' :: (escapeString k ++ '"' ::
    (':' :: '"' :: (escapeString v ++ '"' :: SEP))) from rfl]
  dsimp only
  rw [parseStr_escape k (':' :: '"' :: (escapeString v ++ '"' :: SEP))]
  dsimp only
  rw [show skipWS (':' :: '"' :: (escapeString v ++ '"' :: SEP)) =
    ':' :: '"' :: (escapeString v ++ '"' :: SEP) from rfl]
  dsimp only
  rw [show skipWS ('"' :: (escapeString v ++ '"' :: SEP)) =
    '"' :: (escapeString v ++ '"' :: SEP) from rfl]
  dsimp only
  rw [parseStr_escape v SEP]
  rfl

theorem setEntry_append :
    ∀ (acc : List (String × String)) (k v : String),
      (∀ f ∈ acc, f.1 ≠ k) → setEntry acc k v = acc ++ [(k, v)] := by
  intro acc
  induction acc with
  | nil => intro k v _; rfl
  | cons f t ih =>
    intro k v h
    rw [setEntry, if_neg (h f (List.mem_cons_self _ _)), ih k v
      (fun g hg => h g (List.mem_cons_of_mem _ hg))]
    rfl

theorem assignAll_append :
    ∀ (l acc : List (String × String)), (l.map Prod.fst).Nodup →
      (∀ e ∈ l, ∀ f ∈ acc, f.1 ≠ e.1) → assignAll acc l = acc ++ l := by
  intro l
  induction l with
  | nil => intro acc _ _; simp [assignAll]
  | cons e t ih =>
    obtain ⟨k, v⟩ := e
    intro acc hnd hdisj
    rw [List.map_cons, List.nodup_cons] at hnd
    rw [assignAll, List.foldl_cons]
    have hstep : setEntry acc k v = acc ++ [(k, v)] :=
      setEntry_append acc k v (fun f hf => hdisj (k, v) (List.mem_cons_self _ _) f hf)
    rw [show List.foldl (fun a e => setEntry a e.1 e.2) (setEntry acc k v) t =
      assignAll (setEntry acc k v) t from rfl, hstep, ih (acc ++ [(k, v)]) hnd.2 ?_]
    · rw [List.append_assoc]; rfl
    · intro e he f hf
      rcases List.mem_append.mp hf with hf | hf
      · exact hdisj e (List.mem_cons_of_mem _ he) f hf
      · rcases List.mem_singleton.mp hf with rfl
        intro heq
        exact hnd.1 (heq ▸ List.mem_map_of_mem Prod.fst he)

theorem decodeStrMap_serial :
    ∀ (entries : List (String × String)) (fuel : Nat) (acc : List (String × String))
      (allowEnd : Bool) (rest : List Char),
      entries.length < fuel → (allowEnd = true ∨ entries ≠ []) →
      decodeStrMap fuel (serializeEntries entries ++ '\x7d' :: rest) allowEnd acc =
        some (assignAll acc entries, rest) := by
  intro entries
  induction entries with
  | nil =>
    intro fuel acc allowEnd rest hf hae
    cases fuel with
    | zero => omega
    | succ f =>
      have hE : allowEnd = true := by
        rcases hae with h | h
        · exact h
        · exact absurd rfl h
      subst hE
      rfl
  | cons e tail ih =>
    obtain ⟨k, v⟩ := e
    intro fuel acc allowEnd rest hf hae
    cases fuel with
    | zero => omega
    | succ f =>
      cases tail with
      | nil =>
        have hshape : serializeEntries [(k, v)] ++ '\x7d' :: rest =
            '"' :: (escapeString k ++ '"' :: (':' :: '"' ::
              (escapeString v ++ '"' :: ('\x7d' :: rest)))) := by
          simp [serializeEntries, quoteJSON]
        rw [hshape, decodeStrMap_member f k v acc allowEnd ('\x7d' :: rest)]
        rfl
      | cons e2 t2 =>
        have hshape : serializeEntries ((k, v) :: e2 :: t2) ++ '\x7d' :: rest =
            '"' :: (escapeString k ++ '"' :: (':' :: '"' ::
              (escapeString v ++ '"' :: (',' ::
                (serializeEntries (e2 :: t2) ++ '\x7d' :: rest))))) := by
          simp [serializeEntries, quoteJSON]
        rw [hshape, decodeStrMap_member f k v acc allowEnd
          (',' :: (serializeEntries (e2 :: t2) ++ '\x7d' :: rest))]
        rw [show skipWS (',' :: (serializeEntries (e2 :: t2) ++ '\x7d' :: rest)) =
          ',' :: (serializeEntries (e2 :: t2) ++ '\x7d' :: rest) from rfl]
        dsimp only
        rw [if_pos rfl, ih f (setEntry acc k v) false rest
          (by simp at hf ⊢; omega) (Or.inr (by simp))]
        rfl

theorem quoteJSON_shape (s : String) (X : List Char) :
    quoteJSON s ++ X = '"' :: (escapeString s ++ '"' :: X) := by
  simp [quoteJSON]

theorem len_serializeEntries :
    ∀ l : List (String × String), l.length ≤ (serializeEntries l).length := by
  intro l
  induction l with
  | nil => simp [serializeEntries]
  | cons e t ih =>
    obtain ⟨k, v⟩ := e
    cases t with
    | nil => simp [serializeEntries, quoteJSON]
    | cons e2 t2 =>
      have hE : serializeEntries ((k, v) :: e2 :: t2) =
          quoteJSON k ++ ':' :: quoteJSON v ++ ',' :: serializeEntries (e2 :: t2) := rfl
      rw [hE]
      simp only [List.length_append, List.length_cons] at ih ⊢
      omega

theorem decodeTopBody_binaries (f : Nat) (S : List (String × String)) (rest : List Char)
    (hf : S.length < f) :
    decodeTopBody (f + 1) ('"' :: (escapeString "binaries" ++ '"' ::
        (':' :: '\x7b' :: (serializeEntries S ++ '\x7d' :: rest)))) true [] =
      match skipWS rest with
      | [] => none
      | c3 :: l4 =>
        if c3 = ',' then decodeTopBody f l4 false (assignAll [] S)
        else if c3 = '\x7d' then some (assignAll [] S, l4)
        else none := by
  rw [decodeTopBody]
  rw [show skipWS ('"' :: (escapeString "binaries" ++ '"' ::
    (':' :: '\x7b' :: (serializeEntries S ++ '\x7d' :: rest)))) =
    '"' :: (escapeString "binaries" ++ '"' ::
    (':' :: '\x7b' :: (serializeEntries S ++ '\x7d' :: rest))) from rfl]
  dsimp only
  rw [if_neg (by decide : ¬('"' : Char) = '\x7d'), if_pos rfl,
    parseStr_escape "binaries" (':' :: '\x7b' :: (serializeEntries S ++ '\x7d' :: rest))]
  dsimp only
  rw [show skipWS (':' :: '\x7b' :: (serializeEntries S ++ '\x7d' :: rest)) =
    ':' :: '\x7b' :: (serializeEntries S ++ '\x7d' :: rest) from rfl]
  dsimp only
  rw [if_pos rfl, if_pos (show String.mk "binaries".data = "binaries" from rfl)]
  rw [show skipWS ('\x7b' :: (serializeEntries S ++ '\x7d' :: rest)) =
    '\x7b' :: (serializeEntries S ++ '\x7d' :: rest) from rfl]
  dsimp only
  rw [if_neg (by decide : ¬('\x7b' : Char) = 'n'), if_pos rfl,
    decodeStrMap_serial S f [] true rest hf (Or.inl rfl)]

theorem decode_serialize (p : PlanInfo)
    (hnd : ((sortByKey p.Binaries).map Prod.fst).Nodup) :
    decodePlanInfo (serializePlanInfo p) = .ok ⟨sortByKey p.Binaries⟩ := by
  have hdata : (serializePlanInfo p).data =
      '\x7b' :: ('"' :: (escapeString "binaries" ++ '"' :: (':' :: '\x7b' ::
        (serializeEntries (sortByKey p.Binaries) ++ '\x7d' :: ['\x7d'])))) := by
    simp [serializePlanInfo, quoteJSON]
  have he : (escapeString "binaries").length = 8 := rfl
  rw [decodePlanInfo]
  set n := (serializePlanInfo p).data.length with hn
  have hf : (sortByKey p.Binaries).length < n + 1 := by
    have h1 := len_serializeEntries (sortByKey p.Binaries)
    have h2 : n = (serializeEntries (sortByKey p.Binaries)).length + 15 := by
      rw [hn, hdata]
      simp only [List.length_cons, List.length_append, he, List.length_nil]
      omega
    omega
  rw [hdata]
  rw [show skipWS ('\x7b' :: ('"' :: (escapeString "binaries" ++ '"' ::
    (':' :: '\x7b' :: (serializeEntries (sortByKey p.Binaries) ++ '\x7d' :: ['\x7d']))))) =
    '\x7b' :: ('"' :: (escapeString "binaries" ++ '"' :: (':' :: '\x7b' ::
    (serializeEntries (sortByKey p.Binaries) ++ '\x7d' :: ['\x7d'])))) from rfl]
  dsimp only
  rw [if_neg (by decide : ¬('\x7b' : Char) = 'n'), if_pos rfl]
  rw [show n + 2 = (n + 1) + 1 from rfl]
  rw [decodeTopBody_binaries (n + 1) (sortByKey p.Binaries) ['\x7d'] hf]
  rw [assignAll_append (sortByKey p.Binaries) [] hnd (by simp)]
  rfl

theorem serializePlanInfo_data (p : PlanInfo) :
    (serializePlanInfo p).data =
      '\x7b' :: '"' :: 'b' :: 'i' :: 'n' :: 'a' :: 'r' :: 'i' :: 'e' :: 's' ::
        '"' :: ':' :: '\x7b' ::
        (serializeEntries (sortByKey p.Binaries) ++ '\x7d' :: ['\x7d']) := rfl

theorem trimGo_serialize (p : PlanInfo) :
    trimGo (serializePlanInfo p) = serializePlanInfo p := by
  have h1 : (serializePlanInfo p).data.dropWhile isGoSpace = (serializePlanInfo p).data := by
    rw [serializePlanInfo_data p, List.dropWhile_cons, if_neg (by decide)]
  have hi : (serializePlanInfo p).data =
      ('\x7b' :: '"' :: 'b' :: 'i' :: 'n' :: 'a' :: 'r' :: 'i' :: 'e' :: 's' ::
        '"' :: ':' :: '\x7b' ::
        (serializeEntries (sortByKey p.Binaries) ++ ['\x7d'])) ++ ['\x7d'] := by
    rw [serializePlanInfo_data p]
    simp
  rw [trimGo, h1, hi, List.reverse_append]
  rw [show (['\x7d'] : List Char).reverse = ['\x7d'] from rfl, List.singleton_append,
    List.dropWhile_cons, if_neg (by decide), List.reverse_cons, List.reverse_reverse,
    ← hi]

theorem colonBeforeSlash_serial (Z : List Char) :
    colonBeforeSlash ('\x7b' :: '"' :: 'b' :: 'i' :: 'n' :: 'a' :: 'r' :: 'i' ::
      'e' :: 's' :: '"' :: ':' :: Z) = true := rfl

theorem parseInnerURL_serial (p : PlanInfo) :
    ∃ e, parseInnerURL (cutBefore '#' (serializePlanInfo p).data) = .error e := by
  rw [serializePlanInfo_data p]
  rw [show cutBefore '#' ('\x7b' :: '"' :: 'b' :: 'i' :: 'n' :: 'a' :: 'r' :: 'i' ::
    'e' :: 's' :: '"' :: ':' :: '\x7b' ::
    (serializeEntries (sortByKey p.Binaries) ++ '\x7d' :: ['\x7d'])) =
    '\x7b' :: '"' :: 'b' :: 'i' :: 'n' :: 'a' :: 'r' :: 'i' :: 'e' :: 's' :: '"' ::
    ':' :: '\x7b' ::
    cutBefore '#' (serializeEntries (sortByKey p.Binaries) ++ '\x7d' :: ['\x7d']) from rfl]
  set T := cutBefore '#' (serializeEntries (sortByKey p.Binaries) ++ '\x7d' :: ['\x7d'])
    with hT
  set U := '\x7b' :: '"' :: 'b' :: 'i' :: 'n' :: 'a' :: 'r' :: 'i' :: 'e' :: 's' ::
    '"' :: ':' :: '\x7b' :: T with hU
  rw [parseInnerURL]
  by_cases hctl : U.any isCTLByte = true
  · rw [if_pos hctl]
    exact ⟨_, rfl⟩
  · rw [if_neg hctl, if_neg (by rw [hU]; simp)]
    rw [show getSchemeGo U [] U = .ok ([], U) from by rw [hU]; rfl]
    dsimp only
    by_cases hq : (decide (U.getLast? = some '?') && !listContains '?' U.dropLast) = true
    · rw [if_pos hq]
      have hdrop : U.dropLast = '\x7b' :: '"' :: 'b' :: 'i' :: 'n' :: 'a' :: 'r' ::
          'i' :: 'e' :: 's' :: '"' :: ':' :: ('\x7b' :: T).dropLast := by
        rw [hU]
        rw [show ('\x7b' :: '"' :: 'b' :: 'i' :: 'n' :: 'a' :: 'r' :: 'i' :: 'e' ::
          's' :: '"' :: ':' :: '\x7b' :: T) =
          ('\x7b' :: '"' :: 'b' :: 'i' :: 'n' :: 'a' :: 'r' :: 'i' :: 'e' :: 's' ::
          '"' :: ':' :: []) ++ '\x7b' :: T from by simp, List.dropLast_append_cons]
        simp
      rw [hdrop]
      rw [if_neg (by simp), if_pos ⟨by simp, colonBeforeSlash_serial _⟩]
      exact ⟨_, rfl⟩
    · rw [if_neg hq]
      rw [show cutBefore '?' U = '\x7b' :: '"' :: 'b' :: 'i' :: 'n' :: 'a' :: 'r' ::
        'i' :: 'e' :: 's' :: '"' :: ':' :: cutBefore '?' ('\x7b' :: T) from by
        rw [hU]; rfl]
      rw [if_neg (by simp), if_pos ⟨by simp, colonBeforeSlash_serial _⟩]
      exact ⟨_, rfl⟩

theorem goURLParse_serialize (p : PlanInfo) :
    goURLParseOk (serializePlanInfo p) = false := by
  obtain ⟨e, he⟩ := parseInnerURL_serial p
  rw [goURLParseOk, parseGoURL]
  rw [he]

theorem insertSorted_perm (e : String × String) :
    ∀ l : List (String × String), (insertSorted e l).Perm (e :: l) := by
  intro l
  induction l with
  | nil => exact List.Perm.refl _
  | cons f t ih =>
    rw [insertSorted]
    by_cases h : strLE e.1 f.1 = true
    · rw [if_pos h]
    · rw [if_neg h]
      exact (ih.cons f).trans (List.Perm.swap e f t)

theorem sortByKey_perm (l : List (String × String)) : (sortByKey l).Perm l := by
  induction l with
  | nil => exact List.Perm.refl _
  | cons e t ih =>
    rw [sortByKey, List.foldr_cons]
    exact (insertSorted_perm e _).trans
      ((show sortByKey t = List.foldr insertSorted [] t from rfl) ▸ ih.cons e)

/-- C6: parsing the JSON serialization of a `PlanInfo` (any `PlanInfo` whose
binaries map has pairwise-distinct keys, as every Go map does) succeeds — the
URL heuristic never fires, because a serialized plan always starts
`\x7b"binaries":` and `net/url.Parse` rejects a schemeless URL whose first path
segment contains a colon — and yields the map with the same entries (listed in
the serializer's sorted key order): field-for-field map equality. -/
theorem C6_round_trip (download : PlanInfoFetcher) (p : PlanInfo)
    (hnd : (p.Binaries.map Prod.fst).Nodup) :
    ParsePlanInfo download (serializePlanInfo p) = .ok ⟨sortByKey p.Binaries⟩ ∧
    ∀ e, e ∈ sortByKey p.Binaries ↔ e ∈ p.Binaries := by
  have hperm := sortByKey_perm p.Binaries
  have hndS : ((sortByKey p.Binaries).map Prod.fst).Nodup :=
    ((hperm.map Prod.fst).nodup_iff).mpr hnd
  constructor
  · rw [ParsePlanInfo, trimGo_serialize p, goURLParse_serialize p,
      if_neg (by simp : ¬false = true)]
    dsimp only
    rw [decode_serialize p hndS]
  · exact fun e => hperm.mem_iff

/-- Witness for C6 at a concrete two-entry plan. -/
theorem C6_witness :
    ParsePlanInfo (fun _ => .error "no network")
      (serializePlanInfo ⟨[("linux/amd64", "https://example.com/bin"),
        ("any", "https://example.com/any.zip")]⟩) =
      .ok ⟨sortByKey [("linux/amd64", "https://example.com/bin"),
        ("any", "https://example.com/any.zip")]⟩ :=
  (C6_round_trip (fun _ => .error "no network")
    ⟨[("linux/amd64", "https://example.com/bin"),
      ("any", "https://example.com/any.zip")]⟩ (by decide)).1

/-- C8: whenever the effective info string (after trimming and, when the
trimmed string parses as a URL, downloading) does not decode as the `PlanInfo`
shape, `ParsePlanInfo` returns the fatal parse error wrapping the underlying
decode diagnostic — it never returns a `PlanInfo` for such input. -/
theorem C8_decode_failure (download : PlanInfoFetcher) (s body e : String)
    (hres : (if goURLParseOk (trimGo s) then download (trimGo s)
      else .ok (trimGo s)) = .ok body)
    (hdec : decodePlanInfo body = .error e) :
    ParsePlanInfo download s = .error ("could not parse plan info: " ++ e) := by
  rw [ParsePlanInfo, hres]
  dsimp only
  rw [hdec]

/-- Witness for C8: a URL-shaped input whose downloaded body is not JSON. -/
theorem C8_witness :
    ParsePlanInfo (fun _ => .ok "[1, 2]") "https://example.com/info.json" =
      .error ("could not parse plan info: json: cannot unmarshal value into Go value of type planinfo.PlanInfo") :=
  C8_decode_failure (fun _ => .ok "[1, 2]") "https://example.com/info.json"
    "[1, 2]" "json: cannot unmarshal value into Go value of type planinfo.PlanInfo"
    (by rfl) (by rfl)
